import Mathlib

/-! Shallow embedding of `src/netpulse.py` (NetPulse, a live network monitor).

Numbers: Python floats are modeled as rationals (`ℚ`), which have no NaN and
support exactly the arithmetic the claims are about.  Wall-clock readings and
network behaviour are passed in as explicit environment values:

* a TCP connect attempt is an `Except Unit (ℚ × ℚ)` — on success the two
  `time.time()` readings taken around `socket.create_connection`, and
  `.error ()` is any exception the `try` block of `tcp_connect_time` catches
  (DNS failure, refusal, timeout, unreachable network, ...);
* a download attempt is an `Except Unit (Nat × ℚ × ℚ)` — on a clean run the
  number of bytes the response stream can deliver before EOF together with the
  two clock readings around the read loop, and `.error ()` is any exception
  raised by `urlopen` or by a read, which `download_probe` catches.

Python dicts are insertion-ordered association lists (`dictSet` reproduces
"replace in place or append at the end"); `deque(maxlen=120)` is a list
mutated through `pushCap 120`.  The one mutable object a snapshot can share
with the engine is the `pings` dict stored inside `last_results` (everything
else handed out by `snapshot` is either freshly built by `list(...)` or an
immutable float/int), so exactly that dict is heap-allocated: `PyState.heap`
maps addresses to pings dicts, `measure_once` allocates a fresh address per
cycle, and `LastRes.pings` holds the address, mirroring the reference held by
`self.last_results["pings"]`.  The `threading.Lock` makes the bookkeeping
block of `measure_once` and the body of `snapshot` atomic; the embedding makes
each of them a single atomic step on `PyState`, which is precisely the
atomicity the lock provides. -/

/-- Identity key of a target, Python `f"{host}:{port}"` (`host` is `h.1`,
`port` is `h.2`). -/
def hostKey (h : String × Nat) : String := h.1 ++ ":" ++ toString h.2

/-- Python dict assignment `d[k] = v` on an insertion-ordered association
list: if the key is present its value is replaced in place, otherwise the
binding is appended at the end. -/
def dictSet {α : Type} (d : List (String × α)) (k : String) (v : α) : List (String × α) :=
  if d.any (fun p => p.1 == k) then d.map (fun p => if p.1 == k then (k, v) else p)
  else d ++ [(k, v)]

/-- Building a Python dict by iterating `d[k] = v` left to right (dict
comprehensions and the `results` loop of `measure_once` both do this). -/
def buildDict {α : Type} (l : List (String × α)) : List (String × α) :=
  l.foldl (fun d p => dictSet d p.1 p.2) []

/-- Keys of an embedded dict, in insertion order. -/
def keysOf {α : Type} (d : List (String × α)) : List String := d.map Prod.fst

/-- One `append` on a `collections.deque(maxlen=cap)`: when the deque is full
the leftmost (oldest) element is evicted. -/
def pushCap {α : Type} (cap : Nat) (dq : List α) (v : α) : List α :=
  if dq.length < cap then dq ++ [v] else dq.tail ++ [v]

/-- Embedding of `tcp_connect_time` (src/netpulse.py:62-70).  `conn` is the
outcome of the guarded block: `.ok (s, e)` gives the clock readings
surrounding a successful connect, `.error ()` is any raised exception, which
the bare `except Exception` turns into `None` (= `none`).  The result is
`(end - start) * 1000.0` milliseconds. -/
def tcp_connect_time (host : String) (port : Nat) (timeout : ℚ)
    (conn : Except Unit (ℚ × ℚ)) : Option ℚ :=
  match host, port, timeout, conn with
  | _, _, _, .ok (s, e) => some ((e - s) * 1000)
  | _, _, _, .error _ => none

/-- The read loop of `download_probe` (src/netpulse.py:80-87): starting from
`read` bytes already read, repeatedly request `min(32*1024, toRead - read)`
bytes; the stream delivers `min(request, avail)` where `avail` is what remains
before EOF; an empty chunk breaks the loop.  Returns the total bytes read. -/
def dlLoop (toRead avail read : Nat) : Nat :=
  if h1 : read < toRead then
    if h2 : min (min (32 * 1024) (toRead - read)) avail = 0 then read
    else
      dlLoop toRead (avail - min (min (32 * 1024) (toRead - read)) avail)
        (read + min (min (32 * 1024) (toRead - read)) avail)
  else read
termination_by toRead - read
decreasing_by omega

/-- Embedding of `download_probe` (src/netpulse.py:72-91).  A negative
`bytes_to_read` behaves like the Python `while read < bytes_to_read` guard
with `read = 0`: the loop never runs, hence `Int.toNat`.  On success the
elapsed time is `max(0.0001, end - start)`; any exception anywhere in the
`try` block yields the sentinel `(0, 0.0)`. -/
def download_probe (url : String) (bytes_to_read : Int) (timeout : ℚ)
    (resp : Except Unit (Nat × ℚ × ℚ)) : Nat × ℚ :=
  match url, timeout, resp with
  | _, _, .ok (avail, s, e) => (dlLoop bytes_to_read.toNat avail 0, max (1 / 10000) (e - s))
  | _, _, .error _ => (0, 0)

/-- The throughput computation of `measure_once` (src/netpulse.py:133):
`bps = (bytes_read / seconds) if seconds > 0 else 0.0`. -/
def throughput_bps (bytes_read : Nat) (seconds : ℚ) : ℚ :=
  if 0 < seconds then (bytes_read : ℚ) / seconds else 0

/-- The dict stored in `self.last_results` (src/netpulse.py:140).  The
`pings` field holds the heap address of the per-cycle `results` dict —
Python stores a reference to that dict, and `dict(...)` copies in `snapshot`
copy this reference, not the dict. -/
structure LastRes where
  pings : Nat
  download_bps : ℚ
  bytes : Nat
  elapsed : ℚ
  deriving DecidableEq, Repr

/-- Engine state, the fields assigned by `NetPulse.__init__`
(src/netpulse.py:111-122).  The `lock` is represented by the atomicity of the
embedded operations and `spinner_idx` (pure UI) is omitted. -/
structure NetPulse where
  hosts : List (String × Nat)
  url : String
  bytes_probe : Int
  interval : ℚ
  running : Bool
  download_history : List ℚ
  ping_history : List (String × List ℚ)
  last_results : Option LastRes
  deriving DecidableEq, Repr

/-- Embedding of `NetPulse.__init__` (src/netpulse.py:111-122): interval is
clamped to `max(1.0, interval)`, the download history starts empty, and the
ping-history dict maps every target key to an empty deque. -/
def NetPulse.init (hosts : List (String × Nat)) (url : String) (bytes_probe : Int)
    (interval : ℚ) : NetPulse :=
  { hosts := hosts
    url := url
    bytes_probe := bytes_probe
    interval := max 1 interval
    running := false
    download_history := []
    ping_history := buildDict (hosts.map (fun h => (hostKey h, ([] : List ℚ))))
    last_results := none }

/-- Error taxonomy of the spec's construction contract.  The source
constructor never raises, so the embedded `construct` below is always `.ok`;
the type exists so the claimed failure behaviour is statable. -/
inductive ConfigurationError where
  | emptyTargets
  | nonPositiveBudget
  deriving DecidableEq, Repr

/-- Construction as callers see it: `NetPulse(...)` either returns an engine
or raises.  The source `__init__` contains no validation and no raising
statement, so this is `.ok` on every input. -/
def construct (hosts : List (String × Nat)) (url : String) (bytes_probe : Int)
    (interval : ℚ) : Except ConfigurationError NetPulse :=
  .ok (NetPulse.init hosts url bytes_probe interval)

/-- A Python-level state: the engine object plus the heap of pings dicts
(the only objects that can be shared between the engine and snapshot
holders).  `nextAddr` makes each cycle's `results = {}` a fresh object. -/
structure PyState where
  np : NetPulse
  heap : Nat → List (String × Option ℚ)
  nextAddr : Nat

/-- State right after `NetPulse(...)`: no pings dict allocated yet. -/
def mkState (np : NetPulse) : PyState := { np := np, heap := fun _ => [], nextAddr := 0 }

/-- The history-append loop of `measure_once` (src/netpulse.py:138-139):
`for hp, val in results.items(): self.ping_history[hp].append(val if val is not None else 0.0)`.
Every `ping_history` entry whose key occurs in `results` gets exactly one
append; in the source both dicts are keyed by the same fixed host list, so
`results`' keys always all occur in `ping_history` and each deque there is
hit exactly once. -/
def pingUpdate (ph : List (String × List ℚ)) (results : List (String × Option ℚ)) :
    List (String × List ℚ) :=
  ph.map (fun kv => (kv.1,
    match List.lookup kv.1 results with
    | some v => pushCap 120 kv.2 (v.getD 0)
    | none => kv.2))

/-- Embedding of `NetPulse.measure_once` (src/netpulse.py:124-141).  `conns`
gives the outcome of the TCP connect attempt for each host in order, `resp`
the outcome of the download probe.  The bookkeeping under `self.lock` is the
atomic construction of the new state; `results` is a freshly allocated dict
whose address is stored in `last_results`. -/
def PyState.measure_once (st : PyState) (conns : List (Except Unit (ℚ × ℚ)))
    (resp : Except Unit (Nat × ℚ × ℚ)) : PyState :=
  let results := buildDict ((st.np.hosts.zip conns).map
    (fun hc => (hostKey hc.1, tcp_connect_time hc.1.1 hc.1.2 (12 / 10) hc.2)))
  let dl := download_probe st.np.url st.np.bytes_probe 6 resp
  let bps := throughput_bps dl.1 dl.2
  { np := { st.np with
      download_history := pushCap 120 st.np.download_history bps
      ping_history := pingUpdate st.np.ping_history results
      last_results := some { pings := st.nextAddr, download_bps := bps, bytes := dl.1, elapsed := dl.2 } }
    heap := fun a => if a = st.nextAddr then results else st.heap a
    nextAddr := st.nextAddr + 1 }

/-- Embedding of `NetPulse.start` (src/netpulse.py:143-154): sets the running
flag.  The background loop it spawns is modeled by explicit `measure_once`
steps, so `start` itself only flips the flag. -/
def PyState.start (st : PyState) : PyState :=
  { st with np := { st.np with running := true } }

/-- Embedding of `NetPulse.stop` (src/netpulse.py:156-157): clears the
running flag and nothing else. -/
def PyState.stop (st : PyState) : PyState :=
  { st with np := { st.np with running := false } }

/-- Embedding of `NetPulse.snapshot` (src/netpulse.py:159-161).  The triple
is `(dict(self.last_results), list(self.download_history), {k: list(v) ...})`.
`list(...)` builds fresh lists of immutable floats — pure values here — while
`dict(self.last_results)` is a shallow copy: its `pings` entry is the same
reference (`LastRes.pings` address) the engine holds. -/
def PyState.snapshot (st : PyState) :
    Option LastRes × List ℚ × List (String × List ℚ) :=
  (st.np.last_results, st.np.download_history, st.np.ping_history)

/-- A snapshot holder writing through the pings dict it received:
`snap_pings[k] = v` where `snap_pings` is the dict at address `addr`. -/
def writePings (st : PyState) (addr : Nat) (k : String) (v : Option ℚ) : PyState :=
  { st with heap := fun a => if a = addr then dictSet (st.heap a) k v else st.heap a }

/-- What the engine's own `last_results["pings"][k]` currently contains
(also what any future shallow snapshot of `last_results` exposes at `k`). -/
def readPings (st : PyState) (k : String) : Option (Option ℚ) :=
  match st.np.last_results with
  | some lr => List.lookup k (st.heap lr.pings)
  | none => none

/-- Iterated cycles of the background loop: each list element is one cycle's
environment (per-host connect outcomes, download outcome). -/
def runCycles (st : PyState)
    (envs : List (List (Except Unit (ℚ × ℚ)) × Except Unit (Nat × ℚ × ℚ))) : PyState :=
  envs.foldl (fun s env => s.measure_once env.1 env.2) st

/-! Properties asserted by the claims, and concrete demonstration states. -/

/-- Demonstration state for the snapshot-aliasing bug: a one-target engine
after one completed cycle (the target's connect took 1 second, the download
probe failed). -/
def aliasDemoState : PyState :=
  (mkState (NetPulse.init [(("h"), 1)] ("u") 262144 2)).measure_once
    [Except.ok (0, 1)] (Except.error ())

/-- The same state after the holder of a snapshot writes
`snap["pings"]["h:1"] = 999.0` through the pings dict the snapshot handed
out (heap address 0, the address `snapshot` returned inside its copied
`last_results`). -/
def aliasDemoMutated : PyState := writePings aliasDemoState 0 ("h:1") (some 999)

/-- What claim C2 asserts of one completed cycle: the snapshot's
`last_results` is exactly this cycle's record — a freshly allocated pings
dict (address `st.nextAddr`) with exactly the configured target keys, each
mapped to this cycle's probe outcome; the download history's last entry is
`last_results`' `download_bps`; and each target's ping history ends with this
cycle's latency for that target, a failure being coerced to `0.0`. -/
def MeasureOnceSpec (st : PyState) (conns : List (Except Unit (ℚ × ℚ)))
    (resp : Except Unit (Nat × ℚ × ℚ)) : Prop :=
  ∃ lr : LastRes,
    (st.measure_once conns resp).snapshot.1 = some lr ∧
    lr.pings = st.nextAddr ∧
    lr.download_bps = throughput_bps (download_probe st.np.url st.np.bytes_probe 6 resp).1
      (download_probe st.np.url st.np.bytes_probe 6 resp).2 ∧
    lr.bytes = (download_probe st.np.url st.np.bytes_probe 6 resp).1 ∧
    lr.elapsed = (download_probe st.np.url st.np.bytes_probe 6 resp).2 ∧
    keysOf ((st.measure_once conns resp).heap lr.pings) = st.np.hosts.map hostKey ∧
    ((st.measure_once conns resp).snapshot.2.1).getLast? = some lr.download_bps ∧
    (∀ i (hi : i < st.np.hosts.length) (hic : i < conns.length),
      List.lookup (hostKey (st.np.hosts.get ⟨i, hi⟩))
          ((st.measure_once conns resp).heap lr.pings) =
        some (tcp_connect_time (st.np.hosts.get ⟨i, hi⟩).1 (st.np.hosts.get ⟨i, hi⟩).2
          (12 / 10) (conns.get ⟨i, hic⟩)) ∧
      (∃ hist : List ℚ,
        List.lookup (hostKey (st.np.hosts.get ⟨i, hi⟩))
            ((st.measure_once conns resp).snapshot.2.2) = some hist ∧
        hist.getLast? = some ((tcp_connect_time (st.np.hosts.get ⟨i, hi⟩).1
          (st.np.hosts.get ⟨i, hi⟩).2 (12 / 10) (conns.get ⟨i, hic⟩)).getD 0)))

/-- What claim C10 asserts of a state after `n` completed cycles: the
ping-history keys are exactly the target keys fixed at construction, and the
global download history and every per-target history have length
`min n 120` — all series stay in lockstep. -/
def HistoriesLockstep (st : PyState) (n : Nat) : Prop :=
  keysOf st.np.ping_history = st.np.hosts.map hostKey ∧
  st.np.download_history.length = min n 120 ∧
  ∀ kv ∈ st.np.ping_history, kv.2.length = min n 120

/-- What claim C8 asserts of one cycle in which target `A`'s probe failed
while target `B`'s succeeded: `last_results` still exists and its pings dict
covers every configured target (the cycle ran to completion), `A`'s entry is
the failure marker and its history ends in `0.0`, while `B`'s entry is a
non-negative number. -/
def FailureIsolated (st : PyState) (conns : List (Except Unit (ℚ × ℚ)))
    (resp : Except Unit (Nat × ℚ × ℚ)) (A B : String × Nat) : Prop :=
  ∃ lr : LastRes,
    (st.measure_once conns resp).np.last_results = some lr ∧
    List.lookup (hostKey A) ((st.measure_once conns resp).heap lr.pings) = some none ∧
    (∃ d : ℚ, List.lookup (hostKey B) ((st.measure_once conns resp).heap lr.pings) =
      some (some d) ∧ 0 ≤ d) ∧
    (∃ hist : List ℚ, List.lookup (hostKey A) (st.measure_once conns resp).np.ping_history =
      some hist ∧ hist.getLast? = some 0) ∧
    keysOf ((st.measure_once conns resp).heap lr.pings) = st.np.hosts.map hostKey

/-! Helper lemmas about the embedded dict, deque and loop operations. -/

theorem pushCap_getLast {α : Type} (cap : Nat) (dq : List α) (v : α) :
    (pushCap cap dq v).getLast? = some v := by
  unfold pushCap; split <;> simp [List.getLast?_concat]

theorem pushCap_length {α : Type} (cap : Nat) (dq : List α) (v : α)
    (hle : dq.length ≤ cap) (hcap : 0 < cap) :
    (pushCap cap dq v).length = min (dq.length + 1) cap := by
  unfold pushCap
  split
  · simp; omega
  · rcases dq with _ | ⟨a, t⟩
    · simp_all
    · simp_all; omega

theorem foldl_pushCap {α : Type} (cap : Nat) (hcap : 0 < cap) :
    ∀ (l acc : List α), acc.length ≤ cap →
      l.foldl (pushCap cap) acc = (acc ++ l).drop ((acc ++ l).length - cap) := by
  intro l
  induction l with
  | nil =>
    intro acc hacc
    have h0 : acc.length - cap = 0 := by omega
    simp [h0]
  | cons v vs ih =>
    intro acc hacc
    rw [List.foldl_cons]
    by_cases hlt : acc.length < cap
    · have h1 : pushCap cap acc v = acc ++ [v] := by unfold pushCap; rw [if_pos hlt]
      rw [h1, ih (acc ++ [v]) (by simp; omega)]
      simp [List.append_assoc]
    · rcases acc with _ | ⟨a, t⟩
      · simp at hlt; omega
      · have hacc' : t.length + 1 = cap := by simp at hacc hlt; omega
        have h1 : pushCap cap (a :: t) v = t ++ [v] := by
          unfold pushCap; rw [if_neg hlt]; rfl
        rw [h1, ih (t ++ [v]) (by simp; omega)]
        have hl : (t ++ [v]) ++ vs = t ++ v :: vs := by simp
        rw [hl]
        have e1 : (t ++ v :: vs).length - cap = vs.length := by simp; omega
        have e2 : ((a :: t) ++ v :: vs).length - cap = vs.length + 1 := by simp; omega
        rw [e1, e2, List.cons_append, List.drop_succ_cons]

theorem lookup_cons_ite {α : Type} (k a : String) (b : α) (t : List (String × α)) :
    List.lookup k ((a, b) :: t) = if k = a then some b else List.lookup k t := by
  rw [List.lookup_cons]
  by_cases h : k = a
  · simp [h]
  · simp [h, beq_eq_false_iff_ne.2 h]

theorem keysOf_append {α : Type} (a b : List (String × α)) :
    keysOf (a ++ b) = keysOf a ++ keysOf b := by
  simp [keysOf]

theorem mem_keysOf {α : Type} (d : List (String × α)) (k : String) :
    k ∈ keysOf d ↔ ∃ p ∈ d, p.1 = k := by
  simp [keysOf, List.mem_map]

theorem dictSet_of_not_mem {α : Type} (d : List (String × α)) (k : String) (v : α)
    (h : k ∉ keysOf d) : dictSet d k v = d ++ [(k, v)] := by
  unfold dictSet
  rw [if_neg]
  simp only [List.any_eq_true, beq_iff_eq, not_exists, not_and]
  intro p hp he
  exact h ((mem_keysOf d k).2 ⟨p, hp, he⟩)

theorem foldl_dictSet_of_nodup {α : Type} :
    ∀ (l acc : List (String × α)), (keysOf (acc ++ l)).Nodup →
      l.foldl (fun d p => dictSet d p.1 p.2) acc = acc ++ l := by
  intro l
  induction l with
  | nil => intro acc h; simp
  | cons p t ih =>
    intro acc h
    have hk : p.1 ∉ keysOf acc := by
      rw [keysOf_append] at h
      have hd := (List.nodup_append.mp h).2.2
      intro hc
      exact hd hc (by simp [keysOf])
    rw [List.foldl_cons, dictSet_of_not_mem acc p.1 p.2 hk]
    have h2 : (keysOf ((acc ++ [(p.1, p.2)]) ++ t)).Nodup := by
      simpa [keysOf_append, List.append_assoc, keysOf] using h
    rw [ih (acc ++ [(p.1, p.2)]) h2]
    simp

theorem buildDict_of_nodup {α : Type} (l : List (String × α)) (h : (keysOf l).Nodup) :
    buildDict l = l := by
  unfold buildDict
  have := foldl_dictSet_of_nodup l [] (by simpa using h)
  simpa using this

theorem lookup_get_of_nodup {α : Type} :
    ∀ (l : List (String × α)) (i : Nat) (hi : i < l.length), (keysOf l).Nodup →
      List.lookup (l.get ⟨i, hi⟩).1 l = some (l.get ⟨i, hi⟩).2 := by
  intro l
  induction l with
  | nil => intro i hi; simp at hi
  | cons p t ih =>
    intro i hi hnd
    have hnd1 : (p.1 ∉ keysOf t) ∧ (keysOf t).Nodup := by
      have : (p.1 :: keysOf t).Nodup := by simpa [keysOf] using hnd
      exact ⟨(List.nodup_cons.mp this).1, (List.nodup_cons.mp this).2⟩
    match i with
    | 0 =>
      rcases p with ⟨a, b⟩
      simp [lookup_cons_ite]
    | Nat.succ j =>
      have hj : j < t.length := by simpa using hi
      have hmem : (t.get ⟨j, hj⟩).1 ∈ keysOf t :=
        (mem_keysOf t _).2 ⟨t.get ⟨j, hj⟩, List.get_mem t j hj, rfl⟩
      have hne : (t.get ⟨j, hj⟩).1 ≠ p.1 := by
        intro hc; exact hnd1.1 (hc ▸ hmem)
      rcases p with ⟨a, b⟩
      simp only [List.get_cons_succ]
      rw [lookup_cons_ite, if_neg hne]
      exact ih j hj hnd1.2

theorem lookup_isSome_iff {α : Type} :
    ∀ (d : List (String × α)) (k : String), (List.lookup k d).isSome = true ↔ k ∈ keysOf d := by
  intro d
  induction d with
  | nil => intro k; simp [keysOf]
  | cons p t ih =>
    intro k
    rcases p with ⟨a, b⟩
    rw [lookup_cons_ite]
    by_cases he : k = a
    · simp [he, keysOf]
    · simp only [if_neg he, keysOf, List.map_cons, List.mem_cons]
      rw [ih k]
      simp [keysOf, he]

theorem keysOf_pingUpdate (ph : List (String × List ℚ)) (results : List (String × Option ℚ)) :
    keysOf (pingUpdate ph results) = keysOf ph := by
  simp [keysOf, pingUpdate, List.map_map]

theorem lookup_pingUpdate (ph : List (String × List ℚ)) (results : List (String × Option ℚ))
    (k : String) :
    List.lookup k (pingUpdate ph results) =
      (List.lookup k ph).map (fun dq =>
        match List.lookup k results with
        | some v => pushCap 120 dq (v.getD 0)
        | none => dq) := by
  induction ph with
  | nil => rfl
  | cons kv t ih =>
    rcases kv with ⟨a, b⟩
    simp only [pingUpdate, List.map_cons] at ih ⊢
    rw [lookup_cons_ite, lookup_cons_ite]
    by_cases he : k = a
    · subst he; simp
    · rw [if_neg he, if_neg he, ih]

theorem dlLoop_eq_min :
    ∀ (d toRead avail read : Nat), toRead - read ≤ d →
      dlLoop toRead avail read = read + min (toRead - read) avail := by
  intro d
  induction d with
  | zero =>
    intro t a r h
    rw [dlLoop.eq_def]
    have hn : ¬ r < t := by omega
    rw [dif_neg hn]
    omega
  | succ n ih =>
    intro t a r h
    rw [dlLoop.eq_def]
    by_cases h1 : r < t
    · rw [dif_pos h1]
      by_cases h2 : min (min (32 * 1024) (t - r)) a = 0
      · rw [dif_pos h2]; omega
      · rw [dif_neg h2]
        rw [ih t (a - min (min (32 * 1024) (t - r)) a)
              (r + min (min (32 * 1024) (t - r)) a) (by omega)]
        omega
    · rw [dif_neg h1]; omega

theorem dlLoop_min (toRead avail : Nat) : dlLoop toRead avail 0 = min toRead avail := by
  simpa using dlLoop_eq_min toRead toRead avail 0 (by omega)

theorem mem_dictSet {α : Type} (d : List (String × α)) (k : String) (v : α) :
    ∀ p ∈ dictSet d k v, p ∈ d ∨ p = (k, v) := by
  intro p hp
  unfold dictSet at hp
  split at hp
  · rcases List.mem_map.mp hp with ⟨q, hq, he⟩
    by_cases h : (q.1 == k) = true
    · right; rw [if_pos h] at he; exact he.symm
    · left; rw [if_neg h] at he; exact he ▸ hq
  · rcases List.mem_append.mp hp with h | h
    · left; exact h
    · right; simpa using h

theorem keysOf_dictSet {α : Type} (d : List (String × α)) (k : String) (v : α) (k' : String) :
    k' ∈ keysOf (dictSet d k v) ↔ k' ∈ keysOf d ∨ k' = k := by
  unfold dictSet
  split
  case isTrue h =>
    have hin : k ∈ keysOf d := by
      simp only [List.any_eq_true, beq_iff_eq] at h
      obtain ⟨p, hp, he⟩ := h
      exact (mem_keysOf d k).2 ⟨p, hp, he⟩
    have hmap : keysOf (d.map fun p => if p.1 == k then (k, v) else p) = keysOf d := by
      unfold keysOf
      rw [List.map_map]
      apply List.map_congr_left
      intro p hp
      by_cases hb : (p.1 == k) = true
      · simp only [Function.comp_apply, if_pos hb]
        exact (beq_iff_eq.mp hb).symm
      · simp only [Function.comp_apply, if_neg hb]
    rw [hmap]
    constructor
    · intro h1; exact Or.inl h1
    · rintro (h1 | rfl)
      · exact h1
      · exact hin
  case isFalse h =>
    rw [keysOf_append]
    simp [keysOf]

theorem mem_keys_buildDict_aux {α : Type} :
    ∀ (l acc : List (String × α)) (k : String),
      k ∈ keysOf (l.foldl (fun d q => dictSet d q.1 q.2) acc) ↔
        k ∈ keysOf acc ∨ k ∈ keysOf l := by
  intro l
  induction l with
  | nil => intro acc k; simp [keysOf]
  | cons q t ih =>
    intro acc k
    rw [List.foldl_cons, ih (dictSet acc q.1 q.2) k, keysOf_dictSet]
    simp [keysOf]
    tauto

theorem mem_keys_buildDict {α : Type} (l : List (String × α)) (k : String) :
    k ∈ keysOf (buildDict l) ↔ k ∈ keysOf l := by
  unfold buildDict
  rw [mem_keys_buildDict_aux]
  simp [keysOf]

theorem values_buildDict {α : Type} (c : α) :
    ∀ (l acc : List (String × α)), (∀ p ∈ acc, p.2 = c) → (∀ p ∈ l, p.2 = c) →
      ∀ p ∈ l.foldl (fun d q => dictSet d q.1 q.2) acc, p.2 = c := by
  intro l
  induction l with
  | nil => intro acc hacc _ p hp; exact hacc p hp
  | cons q t ih =>
    intro acc hacc hl p hp
    refine ih (dictSet acc q.1 q.2) ?_ (fun r hr => hl r (List.mem_cons_of_mem q hr)) p hp
    intro r hr
    rcases mem_dictSet acc q.1 q.2 r hr with h | h
    · exact hacc r h
    · rw [h]; exact hl q (List.mem_cons_self q t)

/-- Claim C3: every rolling history is a 120-capacity FIFO: folding `pushCap
120` (one deque `append` per sample) over any sample sequence leaves exactly
the last 120 samples in order, the length is `min N 120`, and for 121
appended values the buffer holds values 2..121 (the tail), the oldest having
been evicted. -/
theorem rolling_history_fifo (l : List ℚ) :
    (l.foldl (pushCap 120) []).length = min l.length 120 ∧
    l.foldl (pushCap 120) [] = l.drop (l.length - 120) ∧
    (l.length = 121 → l.foldl (pushCap 120) [] = l.tail) := by
  have h : l.foldl (pushCap 120) [] = l.drop (l.length - 120) := by
    simpa using foldl_pushCap 120 (by omega) l [] (by simp)
  refine ⟨?_, h, ?_⟩
  · rw [h, List.length_drop]; omega
  · intro h121
    rw [h, h121]
    norm_num [List.drop_one]

/-- Claim C3 witness: a concrete run of 121 appends keeps exactly the last
120 values. -/
theorem rolling_history_fifo_witness :
    (List.replicate 121 (0 : ℚ)).foldl (pushCap 120) [] = (List.replicate 121 (0 : ℚ)).tail :=
  (rolling_history_fifo (List.replicate 121 0)).2.2 (by simp)

/-- Claim C5: cycle throughput is `bytes_read / elapsed` when `elapsed > 0`
and `0.0` otherwise; it is never negative (and, computed in `ℚ`, can have no
NaN), and the download failure sentinel `(0, 0.0)` maps to exactly `0.0`
because an elapsed of `0` falls into the guarded branch and is never used as
a divisor. -/
theorem throughput_nonneg_sentinel :
    (∀ (bytes_read : Nat) (seconds : ℚ), 0 < seconds →
      throughput_bps bytes_read seconds = (bytes_read : ℚ) / seconds ∧
      0 ≤ throughput_bps bytes_read seconds) ∧
    throughput_bps 0 0 = 0 ∧
    (∀ (bytes_read : Nat) (seconds : ℚ), ¬ 0 < seconds →
      throughput_bps bytes_read seconds = 0) := by
  refine ⟨fun b s hs => ⟨if_pos hs, ?_⟩, rfl, fun b s hs => if_neg hs⟩
  rw [throughput_bps, if_pos hs]
  exact div_nonneg (by positivity) (le_of_lt hs)

/-- Claim C5 witness: a concrete positive-elapsed sample. -/
theorem throughput_nonneg_sentinel_witness :
    throughput_bps 3 2 = (3 : ℚ) / 2 ∧ 0 ≤ throughput_bps 3 2 := by
  have h := throughput_nonneg_sentinel.1 3 2 (by norm_num)
  simpa using h

/-- Claim C6: the TCP latency probe is total — its result type already rules
out escaping exceptions (the bare `except` returns `None`, embedded as
`none`), a failing connect yields the failure marker, and a successful
connect yields the connect duration in milliseconds, which is non-negative
whenever the second clock reading is at least the first (rationals have no
NaN). -/
theorem tcp_connect_time_total (host : String) (port : Nat) (timeout : ℚ)
    (conn : Except Unit (ℚ × ℚ)) :
    (conn = .error () → tcp_connect_time host port timeout conn = none) ∧
    (∀ s e : ℚ, conn = .ok (s, e) →
      tcp_connect_time host port timeout conn = some ((e - s) * 1000) ∧
      (s ≤ e → 0 ≤ (e - s) * 1000)) := by
  constructor
  · rintro rfl; rfl
  · rintro s e rfl
    refine ⟨rfl, fun hse => ?_⟩
    have h0 : (0 : ℚ) ≤ e - s := by linarith
    exact mul_nonneg h0 (by norm_num)

/-- Claim C6 witness: a concrete successful connect taking 2 seconds yields
2000 ms, a non-negative duration. -/
theorem tcp_connect_time_total_witness :
    tcp_connect_time ("example.com") 80 1 (Except.ok (0, 2)) = some ((2 - 0) * 1000) ∧
    (0 : ℚ) ≤ (2 - 0) * 1000 := by
  have h := (tcp_connect_time_total ("example.com") 80 1 (Except.ok (0, 2))).2 0 2 rfl
  exact ⟨h.1, h.2 (by norm_num)⟩

/-- Claim C7: the download probe returns exactly `(0, 0.0)` on any failure
(and cannot raise — its result type is total); on a successful run it reads
`min max-bytes avail` bytes — it stops at the byte budget or at the end of
the stream, whichever comes first, so `bytes_read ≤ max-bytes` — and the
elapsed time is floored to the epsilon `0.0001`, hence strictly positive. -/
theorem download_probe_bounds (url : String) (bytes_to_read : Int) (timeout : ℚ)
    (resp : Except Unit (Nat × ℚ × ℚ)) :
    (resp = .error () → download_probe url bytes_to_read timeout resp = (0, 0)) ∧
    (∀ (avail : Nat) (s e : ℚ), resp = .ok (avail, s, e) →
      (download_probe url bytes_to_read timeout resp).1 = min bytes_to_read.toNat avail ∧
      (download_probe url bytes_to_read timeout resp).1 ≤ bytes_to_read.toNat ∧
      (1 / 10000 : ℚ) ≤ (download_probe url bytes_to_read timeout resp).2 ∧
      0 < (download_probe url bytes_to_read timeout resp).2) := by
  constructor
  · rintro rfl; rfl
  · rintro avail s e rfl
    refine ⟨?_, ?_, ?_, ?_⟩
    · simpa [download_probe] using dlLoop_min bytes_to_read.toNat avail
    · simp [download_probe, dlLoop_min]
    · simp only [download_probe]
      exact le_max_left (1 / 10000 : ℚ) (e - s)
    · simp only [download_probe]
      exact lt_of_lt_of_le (by norm_num) (le_max_left (1 / 10000 : ℚ) (e - s))

/-- Claim C7 witness: a concrete successful download with a 5-byte stream and
a 10-byte budget reads 5 bytes with elapsed 1 second. -/
theorem download_probe_bounds_witness :
    (download_probe ("u") 10 4 (Except.ok (5, 0, 1))).1 = min (Int.toNat 10) 5 ∧
    (download_probe ("u") 10 4 (Except.ok (5, 0, 1))).1 ≤ Int.toNat 10 ∧
    (1 / 10000 : ℚ) ≤ (download_probe ("u") 10 4 (Except.ok (5, 0, 1))).2 ∧
    0 < (download_probe ("u") 10 4 (Except.ok (5, 0, 1))).2 :=
  (download_probe_bounds ("u") 10 4 (Except.ok (5, 0, 1))).2 5 0 1 rfl

/-- Claim C9: `stop` is idempotent and safe in every state (including before
any `start`, since the statement quantifies over all states and `stop` is a
total function that only clears the flag), and the start-stop-start round
trip touches nothing but the running flag: histories, `last_results`, the
heap of pings dicts, and all configuration fields persist. -/
theorem stop_idempotent_and_preserving (st : PyState) :
    st.stop.stop = st.stop ∧
    st.stop.np.running = false ∧
    st.start.stop.start = st.start ∧
    st.start.np.running = true ∧
    st.start.np.download_history = st.np.download_history ∧
    st.start.np.ping_history = st.np.ping_history ∧
    st.start.np.last_results = st.np.last_results ∧
    st.start.heap = st.heap ∧
    st.stop.np.download_history = st.np.download_history ∧
    st.stop.np.ping_history = st.np.ping_history ∧
    st.stop.np.last_results = st.np.last_results ∧
    st.stop.heap = st.heap :=
  ⟨rfl, rfl, rfl, rfl, rfl, rfl, rfl, rfl, rfl, rfl, rfl, rfl⟩

/-- Claim C4 counterexample: constructing with an empty target list, with a
zero byte budget, and with a negative byte budget all succeed — `__init__`
contains no validation, so no `ConfigurationError` is ever produced. -/
theorem construct_accepts_invalid_inputs :
    (construct [] ("u") 262144 2).isOk = true ∧
    (construct [(("a"), 80)] ("u") 0 2).isOk = true ∧
    (construct [(("a"), 80)] ("u") (-5) 2).isOk = true :=
  ⟨rfl, rfl, rfl⟩

/-- Claim C4 amended: construction never fails; an interval below 1 is
silently clamped to 1 (an interval of at least 1 is kept as is), no other
parameter is corrected (targets, url and byte budget are stored verbatim),
and the download history and every target's ping history start empty. -/
theorem construct_clamps_and_initializes (hosts : List (String × Nat)) (url : String)
    (bytes_probe : Int) (interval : ℚ) :
    construct hosts url bytes_probe interval = .ok (NetPulse.init hosts url bytes_probe interval) ∧
    (NetPulse.init hosts url bytes_probe interval).interval = max 1 interval ∧
    (1 ≤ interval → (NetPulse.init hosts url bytes_probe interval).interval = interval) ∧
    (NetPulse.init hosts url bytes_probe interval).hosts = hosts ∧
    (NetPulse.init hosts url bytes_probe interval).url = url ∧
    (NetPulse.init hosts url bytes_probe interval).bytes_probe = bytes_probe ∧
    (NetPulse.init hosts url bytes_probe interval).download_history = [] ∧
    (∀ kv ∈ (NetPulse.init hosts url bytes_probe interval).ping_history, kv.2 = ([] : List ℚ)) ∧
    (∀ k : String, k ∈ keysOf (NetPulse.init hosts url bytes_probe interval).ping_history ↔
      k ∈ hosts.map hostKey) := by
  refine ⟨rfl, rfl, fun hi => max_eq_right hi, rfl, rfl, rfl, rfl, ?_, ?_⟩
  · intro kv hkv
    exact values_buildDict ([] : List ℚ) (hosts.map fun h => (hostKey h, ([] : List ℚ))) []
      (by simp) (by simp) kv hkv
  · intro k
    show k ∈ keysOf (buildDict (hosts.map fun h => (hostKey h, ([] : List ℚ)))) ↔ _
    rw [mem_keys_buildDict]
    simp [keysOf]

/-- Claim C4 amended witness: an interval of 2 (at least the minimum) is kept
unchanged. -/
theorem construct_clamps_and_initializes_witness :
    (NetPulse.init [(("a"), 80)] ("u") 262144 2).interval = 2 :=
  (construct_clamps_and_initializes [(("a"), 80)] ("u") 262144 2).2.2.1 (by norm_num)

/-- Claim C1 is violated by the code: `snapshot` copies `last_results` with
a shallow `dict(...)`, so the returned copy's `pings` entry is the very dict
the engine holds (heap address 0 in both).  The caller's write through the
snapshot leaves the engine object itself untouched (`np` is unchanged, the
engine performed no step), yet the engine's `last_results["pings"]` — and
hence every future snapshot — now reads `999` where it read `1000`.  The
claimed independent ownership fails for the pings mapping. -/
theorem snapshot_pings_aliasing_demo :
    aliasDemoState.snapshot.1 = aliasDemoState.np.last_results ∧
    aliasDemoState.np.last_results =
      some { pings := 0, download_bps := 0, bytes := 0, elapsed := 0 } ∧
    readPings aliasDemoState ("h:1") = some (some 1000) ∧
    aliasDemoMutated.np = aliasDemoState.np ∧
    readPings aliasDemoMutated ("h:1") = some (some 999) ∧
    aliasDemoMutated.snapshot.1 = aliasDemoState.snapshot.1 := by
  refine ⟨rfl, rfl, ?_, rfl, rfl, rfl⟩
  have h : readPings aliasDemoState ("h:1") = some (some ((1 - 0) * 1000)) := rfl
  rw [h]
  norm_num

theorem keysOf_results (hosts : List (String × Nat)) (conns : List (Except Unit (ℚ × ℚ)))
    (hlen : hosts.length ≤ conns.length) :
    keysOf ((hosts.zip conns).map
      (fun hc => (hostKey hc.1, tcp_connect_time hc.1.1 hc.1.2 (12 / 10) hc.2))) =
      hosts.map hostKey := by
  unfold keysOf
  rw [List.map_map]
  rw [show (Prod.fst ∘ fun hc : (String × Nat) × Except Unit (ℚ × ℚ) =>
      (hostKey hc.1, tcp_connect_time hc.1.1 hc.1.2 (12 / 10) hc.2)) =
      hostKey ∘ Prod.fst from rfl]
  rw [← List.map_map, List.map_fst_zip hosts conns hlen]

theorem results_lookup (hosts : List (String × Nat)) (conns : List (Except Unit (ℚ × ℚ)))
    (i : Nat) (hi : i < hosts.length) (hic : i < conns.length)
    (hlen : conns.length = hosts.length) (hnd : (hosts.map hostKey).Nodup) :
    List.lookup (hostKey (hosts.get ⟨i, hi⟩))
      ((hosts.zip conns).map
        (fun hc => (hostKey hc.1, tcp_connect_time hc.1.1 hc.1.2 (12 / 10) hc.2))) =
      some (tcp_connect_time (hosts.get ⟨i, hi⟩).1 (hosts.get ⟨i, hi⟩).2 (12 / 10)
        (conns.get ⟨i, hic⟩)) := by
  have hzlen : (hosts.zip conns).length = hosts.length := by
    rw [List.length_zip]; omega
  have hiL : i < ((hosts.zip conns).map
      (fun hc => (hostKey hc.1, tcp_connect_time hc.1.1 hc.1.2 (12 / 10) hc.2))).length := by
    rw [List.length_map, hzlen]; exact hi
  have hget : (((hosts.zip conns).map
      (fun hc => (hostKey hc.1, tcp_connect_time hc.1.1 hc.1.2 (12 / 10) hc.2))).get ⟨i, hiL⟩) =
      (hostKey (hosts.get ⟨i, hi⟩), tcp_connect_time (hosts.get ⟨i, hi⟩).1
        (hosts.get ⟨i, hi⟩).2 (12 / 10) (conns.get ⟨i, hic⟩)) := by
    rw [List.get_map]
    congr 1 <;> rw [List.get_zip]
  have hnodup : (keysOf ((hosts.zip conns).map
      (fun hc => (hostKey hc.1, tcp_connect_time hc.1.1 hc.1.2 (12 / 10) hc.2)))).Nodup := by
    rw [keysOf_results hosts conns (by omega)]; exact hnd
  have h := lookup_get_of_nodup _ i hiL hnodup
  rw [hget] at h
  exact h

theorem measure_once_heap_at_addr (st : PyState) (conns : List (Except Unit (ℚ × ℚ)))
    (resp : Except Unit (Nat × ℚ × ℚ)) (hnd : (st.np.hosts.map hostKey).Nodup)
    (hlen : conns.length = st.np.hosts.length) :
    (st.measure_once conns resp).heap st.nextAddr =
      (st.np.hosts.zip conns).map
        (fun hc => (hostKey hc.1, tcp_connect_time hc.1.1 hc.1.2 (12 / 10) hc.2)) := by
  show (if st.nextAddr = st.nextAddr then buildDict _ else _) = _
  rw [if_pos rfl]
  apply buildDict_of_nodup
  rw [keysOf_results st.np.hosts conns (by omega)]
  exact hnd

/-- Claim C2: after a completed cycle, `last_results` reflects exactly that
cycle — it is wholly replaced by a record built from this cycle's probe
outcomes alone, its pings dict has exactly one entry per configured target
(assuming the target keys are distinct, as identity is by key), the download
history's last entry equals `last_results.download_bps`, and each target's
ping history ends with that target's latency from `last_results` (failure
coerced to `0.0`); a snapshot between cycles therefore never mixes cycles. -/
theorem measure_once_consistent (st : PyState) (conns : List (Except Unit (ℚ × ℚ)))
    (resp : Except Unit (Nat × ℚ × ℚ))
    (hlen : conns.length = st.np.hosts.length)
    (hnd : (st.np.hosts.map hostKey).Nodup)
    (hkeys : keysOf st.np.ping_history = st.np.hosts.map hostKey) :
    MeasureOnceSpec st conns resp := by
  refine ⟨_, rfl, rfl, rfl, rfl, rfl, ?_, ?_, ?_⟩
  · rw [measure_once_heap_at_addr st conns resp hnd hlen,
      keysOf_results st.np.hosts conns (by omega)]
  · exact pushCap_getLast 120 st.np.download_history _
  · intro i hi hic
    constructor
    · rw [measure_once_heap_at_addr st conns resp hnd hlen]
      exact results_lookup st.np.hosts conns i hi hic hlen hnd
    · have hmem : hostKey (st.np.hosts.get ⟨i, hi⟩) ∈ keysOf st.np.ping_history := by
        rw [hkeys]
        exact List.mem_map.2 ⟨st.np.hosts.get ⟨i, hi⟩, List.get_mem st.np.hosts i hi, rfl⟩
      obtain ⟨dq, hdq⟩ := Option.isSome_iff_exists.1 ((lookup_isSome_iff _ _).2 hmem)
      refine ⟨pushCap 120 dq ((tcp_connect_time (st.np.hosts.get ⟨i, hi⟩).1
        (st.np.hosts.get ⟨i, hi⟩).2 (12 / 10) (conns.get ⟨i, hic⟩)).getD 0), ?_, ?_⟩
      · show List.lookup _ (pingUpdate st.np.ping_history _) = _
        rw [lookup_pingUpdate, hdq]
        have hbd : buildDict ((st.np.hosts.zip conns).map
            (fun hc => (hostKey hc.1, tcp_connect_time hc.1.1 hc.1.2 (12 / 10) hc.2))) =
            (st.np.hosts.zip conns).map
              (fun hc => (hostKey hc.1, tcp_connect_time hc.1.1 hc.1.2 (12 / 10) hc.2)) := by
          apply buildDict_of_nodup
          rw [keysOf_results st.np.hosts conns (by omega)]
          exact hnd
        rw [hbd, results_lookup st.np.hosts conns i hi hic hlen hnd]
        rfl
      · exact pushCap_getLast 120 dq _

theorem mem_of_lookup {α : Type} :
    ∀ (d : List (String × α)) (k : String) (v : α), List.lookup k d = some v → (k, v) ∈ d := by
  intro d
  induction d with
  | nil => intro k v h; simp at h
  | cons p t ih =>
    intro k v h
    rcases p with ⟨a, b⟩
    rw [lookup_cons_ite] at h
    by_cases he : k = a
    · rw [if_pos he] at h
      subst he
      exact (Option.some.inj h) ▸ List.mem_cons_self (k, b) t
    · rw [if_neg he] at h
      exact List.mem_cons_of_mem (a, b) (ih k v h)

theorem lookup_of_mem_of_nodup {α : Type} (l : List (String × α)) (k : String) (v : α)
    (hm : (k, v) ∈ l) (hnd : (keysOf l).Nodup) : List.lookup k l = some v := by
  obtain ⟨n, hn⟩ := List.mem_iff_get.1 hm
  have := lookup_get_of_nodup l n.1 n.2 hnd
  rw [hn] at this
  exact this

theorem measure_once_hosts (st : PyState) (conns : List (Except Unit (ℚ × ℚ)))
    (resp : Except Unit (Nat × ℚ × ℚ)) :
    (st.measure_once conns resp).np.hosts = st.np.hosts := rfl

theorem lockstep_step (st : PyState) (conns : List (Except Unit (ℚ × ℚ)))
    (resp : Except Unit (Nat × ℚ × ℚ)) (n : Nat)
    (hnd : (st.np.hosts.map hostKey).Nodup)
    (hlen : conns.length = st.np.hosts.length)
    (h : HistoriesLockstep st n) :
    HistoriesLockstep (st.measure_once conns resp) (n + 1) := by
  obtain ⟨hk, hd, hp⟩ := h
  have hbd : buildDict ((st.np.hosts.zip conns).map
      (fun hc => (hostKey hc.1, tcp_connect_time hc.1.1 hc.1.2 (12 / 10) hc.2))) =
      (st.np.hosts.zip conns).map
        (fun hc => (hostKey hc.1, tcp_connect_time hc.1.1 hc.1.2 (12 / 10) hc.2)) := by
    apply buildDict_of_nodup
    rw [keysOf_results st.np.hosts conns (by omega)]
    exact hnd
  refine ⟨?_, ?_, ?_⟩
  · show keysOf (pingUpdate st.np.ping_history _) = _
    rw [keysOf_pingUpdate]
    exact hk
  · show (pushCap 120 st.np.download_history _).length = _
    rw [pushCap_length 120 st.np.download_history _ (by omega) (by omega)]
    omega
  · intro kv hkv
    have hknd : (keysOf st.np.ping_history).Nodup := by rw [hk]; exact hnd
    have hknd2 : (keysOf (pingUpdate st.np.ping_history (buildDict ((st.np.hosts.zip conns).map
        (fun hc => (hostKey hc.1, tcp_connect_time hc.1.1 hc.1.2 (12 / 10) hc.2)))))).Nodup := by
      rw [keysOf_pingUpdate]; exact hknd
    have hlk : List.lookup kv.1 (pingUpdate st.np.ping_history
        (buildDict ((st.np.hosts.zip conns).map
          (fun hc => (hostKey hc.1, tcp_connect_time hc.1.1 hc.1.2 (12 / 10) hc.2))))) =
        some kv.2 := lookup_of_mem_of_nodup _ kv.1 kv.2 (by exact hkv) hknd2
    have hmemk : kv.1 ∈ keysOf st.np.ping_history := by
      rw [← keysOf_pingUpdate st.np.ping_history (buildDict ((st.np.hosts.zip conns).map
        (fun hc => (hostKey hc.1, tcp_connect_time hc.1.1 hc.1.2 (12 / 10) hc.2))))]
      exact (mem_keysOf _ _).2 ⟨kv, hkv, rfl⟩
    obtain ⟨dq, hdq⟩ := Option.isSome_iff_exists.1 ((lookup_isSome_iff _ _).2 hmemk)
    have hmemr : kv.1 ∈ keysOf (buildDict ((st.np.hosts.zip conns).map
        (fun hc => (hostKey hc.1, tcp_connect_time hc.1.1 hc.1.2 (12 / 10) hc.2)))) := by
      rw [hbd, keysOf_results st.np.hosts conns (by omega), ← hk]
      exact hmemk
    obtain ⟨v, hv⟩ := Option.isSome_iff_exists.1 ((lookup_isSome_iff _ _).2 hmemr)
    rw [lookup_pingUpdate, hdq, hv] at hlk
    have hkv2 : kv.2 = pushCap 120 dq (v.getD 0) := by
      have := hlk
      simp only [Option.map_some] at this
      exact (Option.some.inj this).symm
    have hlen0 : dq.length = min n 120 := hp (kv.1, dq) (mem_of_lookup _ _ _ hdq)
    rw [hkv2, pushCap_length 120 dq _ (by omega) (by omega)]
    omega

theorem lockstep_init (hosts : List (String × Nat)) (url : String) (bytes_probe : Int)
    (interval : ℚ) (hnd : (hosts.map hostKey).Nodup) :
    HistoriesLockstep (mkState (NetPulse.init hosts url bytes_probe interval)) 0 := by
  have hkeys0 : keysOf (hosts.map fun h => (hostKey h, ([] : List ℚ))) = hosts.map hostKey := by
    unfold keysOf
    rw [List.map_map]
    rfl
  have hbd : buildDict (hosts.map fun h => (hostKey h, ([] : List ℚ))) =
      hosts.map fun h => (hostKey h, ([] : List ℚ)) := by
    apply buildDict_of_nodup
    rw [hkeys0]
    exact hnd
  refine ⟨?_, ?_, ?_⟩
  · show keysOf (buildDict (hosts.map fun h => (hostKey h, ([] : List ℚ)))) = _
    rw [hbd, hkeys0]
    rfl
  · show ([] : List ℚ).length = min 0 120
    simp
  · intro kv hkv
    show kv.2.length = min 0 120
    have : kv.2 = ([] : List ℚ) := by
      rw [show (mkState (NetPulse.init hosts url bytes_probe interval)).np.ping_history =
        buildDict (hosts.map fun h => (hostKey h, ([] : List ℚ))) from rfl, hbd] at hkv
      obtain ⟨h0, _, he⟩ := List.mem_map.1 hkv
      rw [← he]
    rw [this]
    simp

theorem lockstep_run :
    ∀ (envs : List (List (Except Unit (ℚ × ℚ)) × Except Unit (Nat × ℚ × ℚ)))
      (st : PyState) (n : Nat),
      (st.np.hosts.map hostKey).Nodup →
      (∀ env ∈ envs, env.1.length = st.np.hosts.length) →
      HistoriesLockstep st n →
      HistoriesLockstep (runCycles st envs) (n + envs.length) := by
  intro envs
  induction envs with
  | nil => intro st n _ _ h; simpa using h
  | cons env t ih =>
    intro st n hnd hlen h
    have hstep := lockstep_step st env.1 env.2 n hnd (hlen env (List.mem_cons_self env t)) h
    have hrec := ih (st.measure_once env.1 env.2) (n + 1) hnd
      (fun e he => hlen e (List.mem_cons_of_mem env he)) hstep
    show HistoriesLockstep (runCycles (st.measure_once env.1 env.2) t) (n + (t.length + 1))
    rw [show n + (t.length + 1) = (n + 1) + t.length by omega]
    exact hrec

/-- Claim C10: histories stay in lockstep.  Starting from a freshly
constructed engine (distinct target keys) and running any `n` cycles (each
supplying one connect outcome per target), the download history and every
per-target ping history have length `min n 120`, and the ping-history keys
are exactly the target keys fixed at construction. -/
theorem histories_lockstep (hosts : List (String × Nat)) (url : String)
    (bytes_probe : Int) (interval : ℚ)
    (envs : List (List (Except Unit (ℚ × ℚ)) × Except Unit (Nat × ℚ × ℚ)))
    (hnd : (hosts.map hostKey).Nodup)
    (hlen : ∀ env ∈ envs, env.1.length = hosts.length) :
    HistoriesLockstep (runCycles (mkState (NetPulse.init hosts url bytes_probe interval)) envs)
      envs.length := by
  have := lockstep_run envs (mkState (NetPulse.init hosts url bytes_probe interval)) 0 hnd hlen
    (lockstep_init hosts url bytes_probe interval hnd)
  simpa using this

/-- Claim C10 witness: two cycles on a one-target engine leave a download
history and a ping history of length two with exactly the target's key. -/
theorem histories_lockstep_witness :
    HistoriesLockstep (runCycles (mkState (NetPulse.init [(("a"), 1)] ("u") 262144 2))
      [([Except.ok (0, 1)], Except.error ()), ([Except.error ()], Except.ok (100, 0, 1))])
      2 := by
  have h := histories_lockstep [(("a"), 1)] ("u") 262144 2
    [([Except.ok (0, 1)], Except.error ()), ([Except.error ()], Except.ok (100, 0, 1))]
    (by decide) (by intro env he; fin_cases he <;> rfl)
  simpa using h

/-- Claim C2 witness: a concrete one-target cycle (connect succeeded, the
download probe failed) satisfies the full consistency property. -/
theorem measure_once_consistent_witness :
    MeasureOnceSpec (mkState (NetPulse.init [(("a"), 1)] ("u") 262144 2))
      [Except.ok (0, 1)] (Except.error ()) :=
  measure_once_consistent (mkState (NetPulse.init [(("a"), 1)] ("u") 262144 2))
    [Except.ok (0, 1)] (Except.error ()) rfl (by decide) rfl

/-- Claim C8: probe failures are isolated per target within a cycle — if the
connect for `A` failed (its environment outcome is the caught exception) and
the one for `B` succeeded, then after the cycle `A` maps to the failure
marker with `0.0` appended to its history, `B` maps to a non-negative
latency, and the pings dict still has an entry for every configured target. -/
theorem probe_failure_isolated (st : PyState) (conns : List (Except Unit (ℚ × ℚ)))
    (resp : Except Unit (Nat × ℚ × ℚ)) (A B : String × Nat) (s e : ℚ)
    (hlen : conns.length = st.np.hosts.length)
    (hnd : (st.np.hosts.map hostKey).Nodup)
    (hkeys : keysOf st.np.ping_history = st.np.hosts.map hostKey)
    (hA : (A, Except.error ()) ∈ st.np.hosts.zip conns)
    (hB : (B, Except.ok (s, e)) ∈ st.np.hosts.zip conns)
    (hse : s ≤ e) :
    FailureIsolated st conns resp A B := by
  have hheap := measure_once_heap_at_addr st conns resp hnd hlen
  have hLnd : (keysOf ((st.np.hosts.zip conns).map
      (fun hc => (hostKey hc.1, tcp_connect_time hc.1.1 hc.1.2 (12 / 10) hc.2)))).Nodup := by
    rw [keysOf_results st.np.hosts conns (by omega)]
    exact hnd
  have hbd : buildDict ((st.np.hosts.zip conns).map
      (fun hc => (hostKey hc.1, tcp_connect_time hc.1.1 hc.1.2 (12 / 10) hc.2))) =
      (st.np.hosts.zip conns).map
        (fun hc => (hostKey hc.1, tcp_connect_time hc.1.1 hc.1.2 (12 / 10) hc.2)) :=
    buildDict_of_nodup _ hLnd
  refine ⟨_, rfl, ?_, ?_, ?_, ?_⟩
  · show List.lookup (hostKey A) ((st.measure_once conns resp).heap st.nextAddr) = some none
    rw [hheap]
    exact lookup_of_mem_of_nodup _ (hostKey A) none
      (List.mem_map.2 ⟨(A, Except.error ()), hA, rfl⟩) hLnd
  · refine ⟨(e - s) * 1000, ?_, mul_nonneg (by linarith) (by norm_num)⟩
    show List.lookup (hostKey B) ((st.measure_once conns resp).heap st.nextAddr) =
      some (some ((e - s) * 1000))
    rw [hheap]
    exact lookup_of_mem_of_nodup _ (hostKey B) (some ((e - s) * 1000))
      (List.mem_map.2 ⟨(B, Except.ok (s, e)), hB, rfl⟩) hLnd
  · have hmem : hostKey A ∈ keysOf st.np.ping_history := by
      rw [hkeys]
      exact List.mem_map.2 ⟨A, (List.of_mem_zip hA).1, rfl⟩
    obtain ⟨dq, hdq⟩ := Option.isSome_iff_exists.1 ((lookup_isSome_iff _ _).2 hmem)
    refine ⟨pushCap 120 dq 0, ?_, pushCap_getLast 120 dq 0⟩
    show List.lookup (hostKey A) (pingUpdate st.np.ping_history _) = _
    rw [lookup_pingUpdate, hdq, hbd,
      lookup_of_mem_of_nodup _ (hostKey A) none
        (List.mem_map.2 ⟨(A, Except.error ()), hA, rfl⟩) hLnd]
    rfl
  · show keysOf ((st.measure_once conns resp).heap st.nextAddr) = _
    rw [hheap, keysOf_results st.np.hosts conns (by omega)]

/-- Claim C8 witness: a concrete two-target cycle where the first target's
connect fails and the second succeeds. -/
theorem probe_failure_isolated_witness :
    FailureIsolated (mkState (NetPulse.init [(("a"), 1), (("b"), 2)] ("u") 262144 2))
      [Except.error (), Except.ok (0, 1)] (Except.error ()) (("a"), 1) (("b"), 2) :=
  probe_failure_isolated
    (mkState (NetPulse.init [(("a"), 1), (("b"), 2)] ("u") 262144 2))
    [Except.error (), Except.ok (0, 1)] (Except.error ()) (("a"), 1) (("b"), 2) 0 1
    rfl (by decide) rfl
    (List.mem_cons_self _ _)
    (List.mem_cons_of_mem _ (List.mem_cons_self _ _))
    (by norm_num)
